import Mathlib

/-!
# Verification of the auto_cythonizer build-orchestration engine

Shallow embedding of the build orchestrator described by the repository:
path matching with gitignore-style rules, the fingerprint cache and its
staleness test, the build run over a list of source units, the annotator,
clean mode, and the concurrent directory scanner.  The only source file
shipped under `examples/` is `demo/demo.pyx`; it is embedded at the end.
-/

namespace AutoCythonizer

/-! ## PathMatcher -/

/-- One exclusion rule: a glob pattern, tagged negated when the raw line
started with `!` (a negated rule re-includes a previously excluded path). -/
structure Rule where
  pattern : String
  negated : Bool
deriving DecidableEq, Repr

/-- Glob matching with explicit fuel; every recursive call strictly
decreases the summed length of pattern and path, so any fuel above that
sum is enough. -/
def globMatchF : Nat → List Char → List Char → Bool
  | 0, _, _ => false
  | _ + 1, [], [] => true
  | _ + 1, [], _ :: _ => false
  | fuel + 1, '*' :: ps, [] => globMatchF fuel ps []
  | fuel + 1, '*' :: ps, c :: cs =>
      globMatchF fuel ps (c :: cs) || (decide (c ≠ '/') && globMatchF fuel ('*' :: ps) cs)
  | fuel + 1, '?' :: ps, c :: cs => decide (c ≠ '/') && globMatchF fuel ps cs
  | _ + 1, _ :: _, [] => false
  | fuel + 1, p :: ps, c :: cs => decide (p = c) && globMatchF fuel ps cs

/-- Modelled from the spec: glob matching for ignore-file patterns
(PathMatcher is not shipped under `src/`).  `*` matches any run of
non-separator characters, `?` one non-separator character, other
characters match literally. -/
def globMatch (ps cs : List Char) : Bool :=
  globMatchF (ps.length + cs.length + 1) ps cs

/-- Whether a rule's pattern matches the relative path. -/
def ruleMatches (r : Rule) (path : String) : Bool :=
  globMatch r.pattern.toList path.toList

/-- Modelled from the spec: `Matcher.isExcluded` — rules are applied in
file order and the last rule whose pattern matches the path determines
the outcome; a path matched by no rule is included. -/
def isExcluded (rules : List Rule) (path : String) : Bool :=
  rules.foldl (fun acc r => if ruleMatches r path then !r.negated else acc) false

/-- The candidate set a scan yields over a flat list of files: the files
the matcher does not exclude, in input order. -/
def candidates (rules : List Rule) (files : List String) : List String :=
  files.filter (fun f => !isExcluded rules f)

/-- Modelled from the spec: parsing one line of the exclusion file —
`#`-prefixed comments and blank lines are ignored, a leading `!` negates. -/
def parseRule (line : String) : Option Rule :=
  match line.toList with
  | [] => none
  | '#' :: _ => none
  | '!' :: rest => some ⟨String.mk rest, true⟩
  | _ => some ⟨line, false⟩

/-- Modelled from the spec: the exclusion file, one pattern per line. -/
def parseRules (lines : List String) : List Rule :=
  lines.filterMap parseRule

/-! ## FingerprintStore -/

/-- A fingerprint record: content hash of the source bytes, the source
mtime at record time, and the toolchain version that produced the
artifact. -/
structure Fingerprint where
  contentHash : Nat
  sourceMTime : Nat
  toolchainVersion : String
deriving DecidableEq, Repr

/-- One source file tracked as an independent item of build work.
`contentHash` is the hash the orchestrator computes of the unit's
current bytes. -/
structure SourceUnit where
  path : String
  sizeBytes : Nat
  mtime : Nat
  contentHash : Nat
deriving DecidableEq, Repr

/-- The durable store: an association list from path to fingerprint. -/
abbrev Store := List (String × Fingerprint)

/-- Look up the fingerprint recorded for a path. -/
def lookupFp : Store → String → Option Fingerprint
  | [], _ => none
  | (p, fp) :: s, q => if p = q then some fp else lookupFp s q

/-- Modelled from the spec: `Store.record(unit, fingerprint)` — replace
the entry for the path, or append a fresh one. -/
def record (s : Store) (p : String) (fp : Fingerprint) : Store :=
  match s with
  | [] => [(p, fp)]
  | (q, fq) :: s' => if q = p then (p, fp) :: s' else (q, fq) :: record s' p fp

/-- The fingerprint recorded for a unit after a successful compile. -/
def fingerprintOf (tc : String) (u : SourceUnit) : Fingerprint :=
  ⟨u.contentHash, u.mtime, tc⟩

/-- Modelled from the spec: `Store.isStale(unit)` — stale when no record
exists or the toolchain version differs; otherwise, an unchanged mtime
short-circuits (treated as not stale without hashing), and a changed
mtime makes the content hash authoritative. -/
def isStale (s : Store) (tc : String) (u : SourceUnit) : Bool :=
  match lookupFp s u.path with
  | none => true
  | some fp =>
      if fp.toolchainVersion ≠ tc then true
      else if fp.sourceMTime = u.mtime then false
      else decide (fp.contentHash ≠ u.contentHash)

/-! ## TaskScheduler and the build run -/

/-- Task status, as in the spec's BuildTask. -/
inductive Status where
  | Pending | Running | Succeeded | Failed | Skipped
deriving DecidableEq, Repr

/-- What the opaque external compiler returns: exit code, captured
diagnostic text, and the unresolved import identifier when the
diagnostics show a missing-dependency signal. -/
structure CompileResult where
  exitCode : Nat
  diagnostic : String
  missingModule : Option String
deriving DecidableEq, Repr

/-- A compiler invocation succeeded: zero exit and no missing-dependency
signal. -/
def CompileResult.ok (r : CompileResult) : Bool :=
  r.exitCode == 0 && r.missingModule.isNone

/-- The per-unit outcome collected into the report. -/
structure TaskResult where
  path : String
  status : Status
  diagnostic : String
  missingModule : Option String
deriving DecidableEq, Repr

/-- Modelled from the spec: processing of one unit by a worker — skip
when not stale; otherwise invoke the compiler; on success record the
fingerprint, on failure leave the store untouched.  The `Nat` counts
external compiler invocations. -/
def runUnit (tc : String) (compile : SourceUnit → CompileResult)
    (s : Store) (u : SourceUnit) : Store × TaskResult × Nat :=
  if isStale s tc u then
    let r := compile u
    if r.ok then
      (record s u.path (fingerprintOf tc u), ⟨u.path, .Succeeded, "", none⟩, 1)
    else
      (s, ⟨u.path, .Failed, r.diagnostic, r.missingModule⟩, 1)
  else
    (s, ⟨u.path, .Skipped, "", none⟩, 0)

/-- The outcome of a whole run: final store, per-unit results in unit
order, and the number of external compiler invocations performed. -/
structure RunOutcome where
  store : Store
  results : List TaskResult
  invocations : Nat
deriving DecidableEq, Repr

/-- Modelled from the spec: `submit(units)` — the scheduler processes
every unit (per-unit failures never abort the batch), threading the
fingerprint store through. -/
def runBuild (tc : String) (compile : SourceUnit → CompileResult)
    (s : Store) : List SourceUnit → RunOutcome
  | [] => ⟨s, [], 0⟩
  | u :: us =>
      let step := runUnit tc compile s u
      let rest := runBuild tc compile step.1 us
      ⟨rest.store, step.2.1 :: rest.results, step.2.2 + rest.invocations⟩

/-- The aggregate BuildReport. -/
structure BuildReport where
  succeeded : List String
  failed : List (String × String)
  skipped : List String
deriving DecidableEq, Repr

/-- Build the report from the per-unit results. -/
def mkReport (rs : List TaskResult) : BuildReport :=
  ⟨(rs.filter (fun r => r.status == .Succeeded)).map (fun r => r.path),
   (rs.filter (fun r => r.status == .Failed)).map (fun r => (r.path, r.diagnostic)),
   (rs.filter (fun r => r.status == .Skipped)).map (fun r => r.path)⟩

/-- Modelled from the spec: nonzero process exit code when any unit
failed, without obscuring which subset succeeded. -/
def processExitCode (rs : List TaskResult) : Nat :=
  if rs.any (fun r => r.status == .Failed) then 1 else 0

/-- LifecycleController states. -/
inductive LCState where
  | Idle | Scanning | Pruning | Building | Reporting | Done | FailedState | Cleaning
deriving DecidableEq, Repr

/-- Reporting transitions to FailedState only when zero units succeeded
and at least one was attempted (compiled). -/
def finalState (rs : List TaskResult) : LCState :=
  if !rs.any (fun r => r.status == .Succeeded) &&
      rs.any (fun r => r.status == .Succeeded || r.status == .Failed) then
    .FailedState
  else .Done

/-- Modelled from the spec: the state sequence of a (non-clean) run —
`Building → Reporting` always occurs, even when individual tasks
failed. -/
def lifecycleTrace (rs : List TaskResult) : List LCState :=
  [.Idle, .Scanning, .Pruning, .Building, .Reporting, finalState rs]

/-! ## Annotator

Source text is modelled as a list of lines, each line a list of
characters. -/

/-- The leading spaces of a line. -/
def indentOf (l : List Char) : List Char := l.takeWhile (fun c => c = ' ')

/-- The line with its leading spaces stripped. -/
def bodyOf (l : List Char) : List Char := l.dropWhile (fun c => c = ' ')

/-- The loop variable of a `for v in ...` line body. -/
def forLoopVar (body : List Char) : List Char :=
  (body.drop 4).takeWhile (fun c => c ≠ ' ')

/-- Modelled from the spec: the directive comment the annotator inserts
before a detected construct — a function definition gets the aggressive
optimization directives, a `for` loop a typed declaration of its loop
variable, a `while` loop a generic loop directive.  All inserted lines
are comments (they start with `#` after the construct's indentation). -/
def directiveFor (l : List Char) : Option (List Char) :=
  let b := bodyOf l
  if ("def ".toList).isPrefixOf b then
    some (indentOf l ++ "# @boundscheck(False) @wraparound(False) (annotated)".toList)
  else if ("for ".toList).isPrefixOf b then
    some (indentOf l ++ ("# cdef int ".toList ++ forLoopVar b ++ " (annotated)".toList))
  else if ("while ".toList).isPrefixOf b then
    some (indentOf l ++ "# cdef loop (annotated)".toList)
  else none

/-- Modelled from the spec: the annotation pass.  `prev` is the line
just emitted; a directive is inserted before a detected construct
unless the preceding line already is exactly that directive, which
makes the pass idempotent. -/
def annotateAux : Option (List Char) → List (List Char) → List (List Char)
  | _, [] => []
  | prev, l :: ls =>
      match directiveFor l with
      | some d =>
          if prev = some d then l :: annotateAux (some l) ls
          else d :: l :: annotateAux (some l) ls
      | none => l :: annotateAux (some l) ls

/-- Modelled from the spec: `annotate(unit)` as a pure text
transformation on the unit's lines. -/
def annotate (x : List (List Char)) : List (List Char) :=
  annotateAux none x

/-! ## Clean mode -/

/-- Modelled from the spec: the artifact extensions clean mode
recognizes (compiled extension modules, generated C, generated pyx). -/
def artifactExtensions : List String := [".so", ".pyd", ".c", ".pyx"]

/-- Modelled from the spec: build-output directories clean mode
recognizes. -/
def artifactDirs : List String := ["build", "__pycache__"]

/-- Split a character list at every occurrence of a separator. -/
def splitChars (sep : Char) : List Char → List (List Char)
  | [] => [[]]
  | c :: cs =>
      if c = sep then [] :: splitChars sep cs
      else
        match splitChars sep cs with
        | [] => [[c]]
        | g :: gs => (c :: g) :: gs

/-- The `/`-separated components of a relative path. -/
def pathComponents (p : String) : List (List Char) :=
  splitChars '/' p.toList

/-- A path is a recognized build artifact: it carries an artifact
extension or lives under an artifact directory. -/
def isArtifact (p : String) : Bool :=
  artifactExtensions.any (fun e => (e.toList).isSuffixOf p.toList) ||
  (pathComponents p).any (fun comp => artifactDirs.any (fun d => d.toList = comp))

/-- A path is matched by the "keep" allow-list. -/
def keepMatches (keep : List String) (p : String) : Bool :=
  keep.any (fun pat => globMatch pat.toList p.toList)

/-- The target tree: the root directory plus the relative paths of the
files below it. -/
structure TargetTree where
  root : String
  files : List String
deriving DecidableEq, Repr

/-- Modelled from the spec: clean mode — remove exactly the recognized
artifacts not matched by the keep allow-list; the root directory itself
is preserved. -/
def cleanRun (t : TargetTree) (keep : List String) : TargetTree :=
  ⟨t.root, t.files.filter (fun p => !(isArtifact p && !keepMatches keep p))⟩

/-! ## Scanner -/

/-- A filesystem snapshot: named files (with size, mtime and content
hash) and named directories. -/
inductive FSEntry where
  | file (name : String) (size mtime hash : Nat)
  | dir (name : String) (entries : List FSEntry)
deriving Repr

/-- The name of a directory entry. -/
def entryName : FSEntry → String
  | .file n _ _ _ => n
  | .dir n _ => n

/-- One subtree's collected units, keyed by the entry name that roots
it (the spec's arena-style per-subtree collection). -/
abbrev Arena := String × List SourceUnit

/-- Deterministic merge of per-subtree arenas: sort by entry name
(lexicographically on the name's characters). -/
def sortArenas (l : List Arena) : List Arena :=
  List.insertionSort (fun a b => a.1.toList ≤ b.1.toList) l

/-- A file the scanner targets (Python source). -/
def isTargetFile (name : String) : Bool :=
  (".py".toList).isSuffixOf name.toList

mutual

/-- Modelled from the spec: the reference sequential scan — directory
entries sorted by name, depth-first, keeping target files the matcher
does not exclude. -/
def scanEntry (rules : List Rule) (pre : String) : FSEntry → List SourceUnit
  | .file name sz mt h =>
      if isTargetFile name && !isExcluded rules (pre ++ name) then
        [⟨pre ++ name, sz, mt, h⟩]
      else []
  | .dir name es =>
      ((sortArenas (scanChildren rules (pre ++ name ++ "/") es)).map Prod.snd).flatten

/-- Collect one arena per directory entry, in listing order. -/
def scanChildren (rules : List Rule) (pre : String) : List FSEntry → List Arena
  | [] => []
  | e :: es => (entryName e, scanEntry rules pre e) :: scanChildren rules pre es

end

mutual

/-- Modelled from the spec: the concurrent scan.  Worker interleaving
is modelled by `σ`, an arbitrary reordering of the per-subtree arenas
of each directory as they are completed; the merge sorts the arenas
before yielding. -/
def scanParEntry (σ : List Arena → List Arena) (rules : List Rule) (pre : String) :
    FSEntry → List SourceUnit
  | .file name sz mt h =>
      if isTargetFile name && !isExcluded rules (pre ++ name) then
        [⟨pre ++ name, sz, mt, h⟩]
      else []
  | .dir name es =>
      ((sortArenas (σ (scanParChildren σ rules (pre ++ name ++ "/") es))).map Prod.snd).flatten

/-- The concurrently collected arenas, before the interleaving reorders
them. -/
def scanParChildren (σ : List Arena → List Arena) (rules : List Rule) (pre : String) :
    List FSEntry → List Arena
  | [] => []
  | e :: es => (entryName e, scanParEntry σ rules pre e) :: scanParChildren σ rules pre es

end

mutual

/-- A well-formed filesystem snapshot: within each directory, entry
names are distinct. -/
def wfEntry : FSEntry → Bool
  | .file _ _ _ _ => true
  | .dir _ es => (es.map entryName).Nodup && wfList es

/-- All entries of a listing are well-formed. -/
def wfList : List FSEntry → Bool
  | [] => true
  | e :: es => wfEntry e && wfList es

end

/-! ## The shipped demo source (`examples/build_demo/demo/demo.pyx`) -/

/-- The thirteen lines of `demo.pyx`, verbatim. -/
def demoLines : List String :=
  ["# cimport cython",
   "# @boundscheck(False)",
   "# @wraparound(False)",
   "# @nonecheck(False)",
   "# @cdivision(True)",
   "def heavy_loop(n):",
   "    total = 0.0",
   "    # cdef int i (annotated)",
   "    for i in range(n):",
   "        # cdef int j (annotated)",
   "        for j in range(50):",
   "            total += i*j + i+j  # all arithmetic, no Python functions",
   "    return total"]

/-- The annotation lines the annotator inserted into `demo.pyx`: the
cimport, the four directives, and the two cdef declarations. -/
def demoAnnotationLines : List String :=
  ["# cimport cython",
   "# @boundscheck(False)",
   "# @wraparound(False)",
   "# @nonecheck(False)",
   "# @cdivision(True)",
   "    # cdef int i (annotated)",
   "        # cdef int j (annotated)"]

/-- A full-line comment: the first non-space character is `#`. -/
def isCommentLine (l : String) : Bool :=
  match bodyOf l.toList with
  | '#' :: _ => true
  | _ => false

/-- The executable statements of a source: its non-comment lines. -/
def execLines (ls : List String) : List String :=
  ls.filter (fun l => !isCommentLine l)

/-- The un-annotated demo source: `demo.pyx` without the inserted
annotation lines. -/
def demoPlainLines : List String :=
  ["def heavy_loop(n):",
   "    total = 0.0",
   "    for i in range(n):",
   "        for j in range(50):",
   "            total += i*j + i+j  # all arithmetic, no Python functions",
   "    return total"]

/-- The statement-level reading of the inner loop of `heavy_loop`:
`for j in range(50): total += i*j + i+j` with the additions taken
exactly.  This reading is used to compare the annotated and
un-annotated versions of the source text; the accumulator of the
running program is an IEEE binary64 float, modelled bit-faithfully by
`heavy_loop_float` below. -/
def innerLoop (i : Nat) (total : ℚ) : ℚ :=
  (List.range 50).foldl (fun t (j : Nat) => t + ((i : ℚ) * (j : ℚ) + (i : ℚ) + (j : ℚ))) total

/-- The statement-level reading of `heavy_loop` from `demo.pyx`:
`total = 0.0`, then the nested loops, additions taken exactly. -/
def heavy_loop (n : Nat) : ℚ :=
  (List.range n).foldl (fun t i => innerLoop i t) 0

/-- `heavy_loop` as read off the un-annotated demo source, whose
executable statements are the same. -/
def heavy_loop_plain (n : Nat) : ℚ :=
  (List.range n).foldl
    (fun t (i : Nat) =>
      (List.range 50).foldl
        (fun t' (j : Nat) => t' + ((i : ℚ) * (j : ℚ) + (i : ℚ) + (j : ℚ))) t) 0

/-! ### The float accumulator of `heavy_loop`, bit-faithfully

Every value the demo's accumulator takes is a nonnegative integer, so
an IEEE-754 binary64 double is modelled by the exact integer value it
holds.  Binary64 addition of two representable values returns the
exact sum rounded to 53 significant bits, round-to-nearest with ties
to even; on nonnegative integers (far below the 2^1024 overflow
threshold, which the demo's values never approach) that rounding is
`roundF`. -/

/-- Round a mantissa: `q` is the truncated quotient, `r` the discarded
remainder, `p` the ulp; round to nearest, ties to even. -/
def roundNearestEven (q r p : Nat) : Nat :=
  if 2 * r > p then q + 1
  else if 2 * r < p then q
  else if q % 2 = 0 then q else q + 1

/-- Round a nonnegative integer to the nearest binary64 value
(53 significant bits, ties to even).  Integers below `2^53` are
representable and returned unchanged. -/
def roundF (x : Nat) : Nat :=
  if x < 2 ^ 53 then x
  else
    roundNearestEven (x / 2 ^ (x.log2 - 52)) (x % 2 ^ (x.log2 - 52)) (2 ^ (x.log2 - 52)) *
      2 ^ (x.log2 - 52)

/-- IEEE binary64 addition on the integer values of the accumulator:
the exact sum, correctly rounded. -/
def fladd (a b : Nat) : Nat := roundF (a + b)

/-- The inner loop of `heavy_loop` with the float accumulator:
`for j in range(50): total += i*j + i+j`. -/
def innerLoopFloat (i : Nat) (total : Nat) : Nat :=
  (List.range 50).foldl (fun t (j : Nat) => fladd t (i * j + i + j)) total

/-- `heavy_loop` from `demo.pyx` with the float accumulator:
`total = 0.0`, then the nested loops, each `+=` rounding to binary64. -/
def heavy_loop_float (n : Nat) : Nat :=
  (List.range n).foldl (fun t (i : Nat) => innerLoopFloat i t) 0

/-! ## Store lemmas -/

theorem lookupFp_record_self (s : Store) (p : String) (fp : Fingerprint) :
    lookupFp (record s p fp) p = some fp := by
  induction s with
  | nil => simp [record, lookupFp]
  | cons e s ih =>
      obtain ⟨q, fq⟩ := e
      by_cases h : q = p
      · simp [record, h, lookupFp]
      · simp [record, h, lookupFp, ih]

theorem lookupFp_record_ne (s : Store) (p q : String) (fp : Fingerprint) (h : q ≠ p) :
    lookupFp (record s p fp) q = lookupFp s q := by
  have hpq : p ≠ q := fun e => h e.symm
  induction s with
  | nil => simp [record, lookupFp, hpq]
  | cons e s ih =>
      obtain ⟨p', fp'⟩ := e
      by_cases h' : p' = p
      · subst h'
        simp [record, lookupFp, hpq]
      · simp [record, h', lookupFp, ih]

theorem isStale_congr (s₁ s₂ : Store) (tc : String) (u : SourceUnit)
    (h : lookupFp s₁ u.path = lookupFp s₂ u.path) : isStale s₁ tc u = isStale s₂ tc u := by
  unfold isStale
  rw [h]

theorem isStale_record_self (s : Store) (tc : String) (u : SourceUnit) :
    isStale (record s u.path (fingerprintOf tc u)) tc u = false := by
  unfold isStale
  rw [lookupFp_record_self]
  simp [fingerprintOf]

/-! ## Build-run lemmas -/

theorem runUnit_not_stale (tc : String) (c : SourceUnit → CompileResult) (s : Store)
    (u : SourceUnit) (h : isStale s tc u = false) :
    runUnit tc c s u = (s, ⟨u.path, .Skipped, "", none⟩, 0) := by
  simp [runUnit, h]

theorem runUnit_stale_ok (tc : String) (c : SourceUnit → CompileResult) (s : Store)
    (u : SourceUnit) (h : isStale s tc u = true) (hok : (c u).ok = true) :
    runUnit tc c s u =
      (record s u.path (fingerprintOf tc u), ⟨u.path, .Succeeded, "", none⟩, 1) := by
  simp [runUnit, h, hok]

theorem runUnit_stale_fail (tc : String) (c : SourceUnit → CompileResult) (s : Store)
    (u : SourceUnit) (h : isStale s tc u = true) (hf : (c u).ok = false) :
    runUnit tc c s u =
      (s, ⟨u.path, .Failed, (c u).diagnostic, (c u).missingModule⟩, 1) := by
  simp [runUnit, h, hf]

theorem runUnit_lookup_ne (tc : String) (c : SourceUnit → CompileResult) (s : Store)
    (u : SourceUnit) (q : String) (h : q ≠ u.path) :
    lookupFp (runUnit tc c s u).1 q = lookupFp s q := by
  unfold runUnit
  by_cases hs : isStale s tc u
  · by_cases hok : (c u).ok <;> simp [hs, hok, lookupFp_record_ne s u.path q _ h]
  · simp [hs]

theorem runBuild_cons (tc : String) (c : SourceUnit → CompileResult) (s : Store)
    (u : SourceUnit) (us : List SourceUnit) :
    runBuild tc c s (u :: us) =
      ⟨(runBuild tc c (runUnit tc c s u).1 us).store,
       (runUnit tc c s u).2.1 :: (runBuild tc c (runUnit tc c s u).1 us).results,
       (runUnit tc c s u).2.2 + (runBuild tc c (runUnit tc c s u).1 us).invocations⟩ := rfl

theorem runBuild_lookup_not_mem (tc : String) (c : SourceUnit → CompileResult) :
    ∀ (us : List SourceUnit) (s : Store) (q : String),
      q ∉ us.map (fun u => u.path) →
      lookupFp (runBuild tc c s us).store q = lookupFp s q := by
  intro us
  induction us with
  | nil => intro s q _; rfl
  | cons u us ih =>
      intro s q hq
      simp only [List.map_cons, List.mem_cons, not_or] at hq
      rw [runBuild_cons]
      exact (ih _ q hq.2).trans (runUnit_lookup_ne tc c s u q hq.1)

theorem runBuild_all_fresh (tc : String) (c : SourceUnit → CompileResult) :
    ∀ (us : List SourceUnit) (s : Store),
      (us.map (fun u => u.path)).Nodup →
      (∀ r ∈ (runBuild tc c s us).results, r.status = .Succeeded ∨ r.status = .Skipped) →
      ∀ u ∈ us, isStale (runBuild tc c s us).store tc u = false := by
  intro us
  induction us with
  | nil => intro s _ _ u hu; cases hu
  | cons u₀ us ih =>
      intro s hnd hok u hu
      have hnd' := hnd
      simp only [List.map_cons, List.nodup_cons] at hnd'
      obtain ⟨hpath, hndtail⟩ := hnd'
      simp only [runBuild_cons] at hok ⊢
      have hk₀ : (runUnit tc c s u₀).2.1.status = Status.Succeeded ∨
          (runUnit tc c s u₀).2.1.status = Status.Skipped :=
        hok _ (List.mem_cons_self _ _)
      rcases List.mem_cons.mp hu with rfl | hu
      · -- the head unit: not stale in the store right after its own step,
        -- and later units never touch its path
        have hstep : isStale (runUnit tc c s u).1 tc u = false := by
          by_cases hs : isStale s tc u
          · by_cases hcu : (c u).ok
            · rw [runUnit_stale_ok tc c s u hs hcu]
              exact isStale_record_self s tc u
            · rw [runUnit_stale_fail tc c s u hs (by simpa using hcu)] at hk₀
              simp at hk₀
          · rw [runUnit_not_stale tc c s u (by simpa using hs)]
            simpa using hs
        have hlk := runBuild_lookup_not_mem tc c us (runUnit tc c s u).1 u.path hpath
        rw [isStale_congr _ _ tc u hlk]
        exact hstep
      · exact ih (runUnit tc c s u₀).1 hndtail (fun r hr => hok r (List.mem_cons_of_mem _ hr)) u hu

theorem runBuild_all_skipped (tc : String) (c : SourceUnit → CompileResult) :
    ∀ (us : List SourceUnit) (s : Store),
      (∀ u ∈ us, isStale s tc u = false) →
      runBuild tc c s us =
        ⟨s, us.map (fun u => ⟨u.path, .Skipped, "", none⟩), 0⟩ := by
  intro us
  induction us with
  | nil => intro s _; rfl
  | cons u us ih =>
      intro s h
      rw [runBuild_cons, runUnit_not_stale tc c s u (h u (List.mem_cons_self _ _))]
      rw [ih s (fun v hv => h v (List.mem_cons_of_mem _ hv))]
      simp

/-! ## Claims about the fingerprint store and build runs -/

/-- C2: `isStale` returns true exactly when no record exists for the
unit's path, the recorded content hash differs, or the recorded
toolchain version differs (given that an unchanged mtime faithfully
signals unchanged content, which is what makes the short-circuit
sound); a unit whose recorded mtime equals its current mtime is not
stale, and a changed mtime with an identical content hash does not
cause a rebuild — hashing is authoritative. -/
theorem isStale_characterization (s : Store) (tc : String) (u : SourceUnit)
    (hm : ∀ fp, lookupFp s u.path = some fp → fp.sourceMTime = u.mtime →
      fp.contentHash = u.contentHash) :
    (isStale s tc u = true ↔
      lookupFp s u.path = none ∨
      ∃ fp, lookupFp s u.path = some fp ∧
        (fp.contentHash ≠ u.contentHash ∨ fp.toolchainVersion ≠ tc)) ∧
    (∀ fp, lookupFp s u.path = some fp → fp.sourceMTime = u.mtime →
      fp.toolchainVersion = tc → isStale s tc u = false) ∧
    (∀ fp, lookupFp s u.path = some fp → fp.contentHash = u.contentHash →
      fp.toolchainVersion = tc → isStale s tc u = false) := by
  cases hlk : lookupFp s u.path with
  | none =>
      refine ⟨?_, ?_, ?_⟩
      · simp [isStale, hlk]
      · intro fp h; cases h
      · intro fp h; cases h
  | some fp =>
      have hstale : isStale s tc u =
          (if fp.toolchainVersion ≠ tc then true
           else if fp.sourceMTime = u.mtime then false
           else decide (fp.contentHash ≠ u.contentHash)) := by
        unfold isStale; rw [hlk]
      refine ⟨?_, ?_, ?_⟩
      · rw [hstale]
        by_cases htc : fp.toolchainVersion = tc
        · by_cases hmt : fp.sourceMTime = u.mtime
          · by_cases hh : fp.contentHash = u.contentHash
            · simp [htc, hmt, hh, hlk]
            · exact absurd (hm fp hlk hmt) hh
          · by_cases hh : fp.contentHash = u.contentHash
            · simp [htc, hmt, hh, hlk]
            · simp [htc, hmt, hh, hlk]
        · simp [htc, hlk]
      · intro fp' h hmt htc
        injection h with h
        subst h
        rw [hstale]
        simp [htc, hmt]
      · intro fp' h hh htc
        injection h with h
        subst h
        rw [hstale]
        by_cases hmt : fp.sourceMTime = u.mtime <;> simp [htc, hmt, hh]

/-- Witness for C2 at a concrete store and unit: the unit's mtime and
content hash both changed, so it is stale. -/
theorem isStale_characterization_witness :
    isStale [("a.py", ⟨5, 7, "cython-3.0"⟩)] "cython-3.0" ⟨"a.py", 10, 9, 6⟩ = true :=
  (isStale_characterization [("a.py", ⟨5, 7, "cython-3.0"⟩)] "cython-3.0"
      ⟨"a.py", 10, 9, 6⟩ (by decide)).1.mpr
    (Or.inr ⟨⟨5, 7, "cython-3.0"⟩, by decide, Or.inl (by decide)⟩)

/-- C4: when a unit's compiler invocation fails, the run leaves its
fingerprint entry unchanged, the unit is still classified stale
afterwards (even with its source bytes unedited), and the run records
a Failed result carrying the captured diagnostics. -/
theorem no_fingerprint_update_on_failure (tc : String) (c : SourceUnit → CompileResult)
    (s : Store) (us : List SourceUnit) (u : SourceUnit)
    (hnd : (us.map (fun v => v.path)).Nodup) (hu : u ∈ us)
    (hstale : isStale s tc u = true) (hfail : (c u).ok = false) :
    lookupFp (runBuild tc c s us).store u.path = lookupFp s u.path ∧
    isStale (runBuild tc c s us).store tc u = true ∧
    (⟨u.path, .Failed, (c u).diagnostic, (c u).missingModule⟩ : TaskResult) ∈
      (runBuild tc c s us).results := by
  induction us generalizing s with
  | nil => cases hu
  | cons u₀ us ih =>
      have hnd' := hnd
      simp only [List.map_cons, List.nodup_cons] at hnd'
      obtain ⟨hpath, hndtail⟩ := hnd'
      simp only [runBuild_cons]
      rcases List.mem_cons.mp hu with rfl | hu
      · rw [runUnit_stale_fail tc c s u hstale hfail]
        have hlk := runBuild_lookup_not_mem tc c us s u.path hpath
        refine ⟨hlk, ?_, List.mem_cons_self _ _⟩
        rw [isStale_congr _ _ tc u hlk]
        exact hstale
      · have hne : u.path ≠ u₀.path := by
          intro h
          exact hpath (h ▸ List.mem_map_of_mem (fun v => v.path) hu)
        have hlk₀ : lookupFp (runUnit tc c s u₀).1 u.path = lookupFp s u.path :=
          runUnit_lookup_ne tc c s u₀ u.path hne
        have hstale' : isStale (runUnit tc c s u₀).1 tc u = true := by
          rw [isStale_congr _ _ tc u hlk₀]; exact hstale
        obtain ⟨h1, h2, h3⟩ := ih (runUnit tc c s u₀).1 hndtail hu hstale'
        exact ⟨h1.trans hlk₀, h2, List.mem_cons_of_mem _ h3⟩

/-- Witness for C4: one failing unit on an empty store keeps the store
empty and the unit stale. -/
theorem no_fingerprint_update_on_failure_witness :
    lookupFp (runBuild "tc" (fun _ => ⟨1, "boom", none⟩) []
        [⟨"a.py", 10, 1, 100⟩]).store "a.py" = lookupFp [] "a.py" ∧
    isStale (runBuild "tc" (fun _ => ⟨1, "boom", none⟩) []
        [⟨"a.py", 10, 1, 100⟩]).store "tc" ⟨"a.py", 10, 1, 100⟩ = true :=
  ⟨(no_fingerprint_update_on_failure "tc" (fun _ => ⟨1, "boom", none⟩) []
      [⟨"a.py", 10, 1, 100⟩] ⟨"a.py", 10, 1, 100⟩ (by decide) (by decide)
      (by decide) (by decide)).1,
   (no_fingerprint_update_on_failure "tc" (fun _ => ⟨1, "boom", none⟩) []
      [⟨"a.py", 10, 1, 100⟩] ⟨"a.py", 10, 1, 100⟩ (by decide) (by decide)
      (by decide) (by decide)).2.1⟩

/-- C1 (counterexample): a build run that completes with a failed unit
refutes unconditional idempotence — with one unit whose compile fails,
the first run completes (its one result is reported and the controller
reaches Reporting), yet the second run over unchanged source and the
same toolchain still performs one compiler invocation and reports the
unit Failed, not Skipped, because no fingerprint was recorded. -/
theorem second_run_recompiles_after_failure :
    (runBuild "tc" (fun _ => ⟨1, "boom", none⟩) [] [⟨"a.py", 10, 1, 100⟩]).results.length = 1 ∧
    LCState.Reporting ∈
      lifecycleTrace (runBuild "tc" (fun _ => ⟨1, "boom", none⟩) [] [⟨"a.py", 10, 1, 100⟩]).results ∧
    (runBuild "tc" (fun _ => ⟨1, "boom", none⟩)
        (runBuild "tc" (fun _ => ⟨1, "boom", none⟩) [] [⟨"a.py", 10, 1, 100⟩]).store
        [⟨"a.py", 10, 1, 100⟩]).invocations = 1 ∧
    ((runBuild "tc" (fun _ => ⟨1, "boom", none⟩)
        (runBuild "tc" (fun _ => ⟨1, "boom", none⟩) [] [⟨"a.py", 10, 1, 100⟩]).store
        [⟨"a.py", 10, 1, 100⟩]).results.all (fun r => r.status == .Skipped)) = false := by
  refine ⟨rfl, ?_, rfl, rfl⟩
  simp [lifecycleTrace]

/-- C1 (amended): if a build run completes with every unit Succeeded or
Skipped, then a second run over unchanged source units with the same
toolchain version performs zero external compiler invocations and
reports every unit as Skipped, whatever the second run's compiler would
do. -/
theorem build_idempotent_after_success (tc : String)
    (c₁ c₂ : SourceUnit → CompileResult) (s : Store) (us : List SourceUnit)
    (hnd : (us.map (fun u => u.path)).Nodup)
    (hok : ∀ r ∈ (runBuild tc c₁ s us).results,
      r.status = .Succeeded ∨ r.status = .Skipped) :
    (runBuild tc c₂ (runBuild tc c₁ s us).store us).invocations = 0 ∧
    (runBuild tc c₂ (runBuild tc c₁ s us).store us).results =
      us.map (fun u => ⟨u.path, .Skipped, "", none⟩) := by
  have hfresh := runBuild_all_fresh tc c₁ us s hnd hok
  rw [runBuild_all_skipped tc c₂ us (runBuild tc c₁ s us).store hfresh]
  exact ⟨rfl, rfl⟩

/-- Witness for the amended C1: two units compile successfully on an
empty store; the second run skips both with zero invocations. -/
theorem build_idempotent_after_success_witness :
    (runBuild "tc" (fun _ => ⟨0, "", none⟩)
        (runBuild "tc" (fun _ => ⟨0, "", none⟩) []
          [⟨"a.py", 10, 1, 100⟩, ⟨"b.py", 20, 2, 200⟩]).store
        [⟨"a.py", 10, 1, 100⟩, ⟨"b.py", 20, 2, 200⟩]).invocations = 0 :=
  (build_idempotent_after_success "tc" (fun _ => ⟨0, "", none⟩) (fun _ => ⟨0, "", none⟩)
    [] [⟨"a.py", 10, 1, 100⟩, ⟨"b.py", 20, 2, 200⟩] (by decide) (by decide)).1

/-- C5: over three units where only B's compile fails, the run reaches
Reporting, all three units are processed, the report shows A and C
Succeeded and B Failed with its captured diagnostic text, and the
process exit code is nonzero. -/
theorem partial_failure_not_fatal (tc : String) (c : SourceUnit → CompileResult)
    (A B C : SourceUnit)
    (hAB : A.path ≠ B.path) (hAC : A.path ≠ C.path) (hBC : B.path ≠ C.path)
    (hA : (c A).ok = true) (hB : (c B).ok = false) (hC : (c C).ok = true) :
    mkReport (runBuild tc c [] [A, B, C]).results =
      ⟨[A.path, C.path], [(B.path, (c B).diagnostic)], []⟩ ∧
    processExitCode (runBuild tc c [] [A, B, C]).results ≠ 0 ∧
    LCState.Reporting ∈ lifecycleTrace (runBuild tc c [] [A, B, C]).results ∧
    (runBuild tc c [] [A, B, C]).results.length = 3 := by
  have hsA : isStale [] tc A = true := rfl
  have stA := runUnit_stale_ok tc c [] A hsA hA
  have hsB : isStale (record [] A.path (fingerprintOf tc A)) tc B = true := by
    unfold isStale
    rw [lookupFp_record_ne [] A.path B.path _ (fun e => hAB e.symm)]
    rfl
  have stB := runUnit_stale_fail tc c (record [] A.path (fingerprintOf tc A)) B hsB hB
  have hsC : isStale (record [] A.path (fingerprintOf tc A)) tc C = true := by
    unfold isStale
    rw [lookupFp_record_ne [] A.path C.path _ (fun e => hAC e.symm)]
    rfl
  have stC := runUnit_stale_ok tc c (record [] A.path (fingerprintOf tc A)) C hsC hC
  have hres : (runBuild tc c [] [A, B, C]).results =
      [⟨A.path, .Succeeded, "", none⟩,
       ⟨B.path, .Failed, (c B).diagnostic, (c B).missingModule⟩,
       ⟨C.path, .Succeeded, "", none⟩] := by
    simp only [runBuild_cons, stA, stB, stC]
    rfl
  rw [hres]
  refine ⟨?_, ?_, ?_, rfl⟩
  · simp [mkReport]
  · simp [processExitCode]
  · simp [lifecycleTrace]

/-- Witness for C5 at three concrete units, the middle one failing. -/
theorem partial_failure_not_fatal_witness :
    mkReport (runBuild "tc"
        (fun u => if u.path = "b.py" then ⟨1, "syntax error", none⟩ else ⟨0, "", none⟩)
        [] [⟨"a.py", 10, 1, 100⟩, ⟨"b.py", 20, 2, 200⟩, ⟨"c.py", 30, 3, 300⟩]).results =
      ⟨["a.py", "c.py"], [("b.py", "syntax error")], []⟩ :=
  (partial_failure_not_fatal "tc"
    (fun u => if u.path = "b.py" then ⟨1, "syntax error", none⟩ else ⟨0, "", none⟩)
    ⟨"a.py", 10, 1, 100⟩ ⟨"b.py", 20, 2, 200⟩ ⟨"c.py", 30, 3, 300⟩
    (by decide) (by decide) (by decide) (by decide) (by decide) (by decide)).1

/-! ## PathMatcher lemmas -/

theorem isExcluded_foldl_no_match (path : String) :
    ∀ (rs : List Rule), (∀ r ∈ rs, ruleMatches r path = false) →
    ∀ acc : Bool,
      rs.foldl (fun acc r => if ruleMatches r path then !r.negated else acc) acc = acc := by
  intro rs
  induction rs with
  | nil => intro _ acc; rfl
  | cons r rs ih =>
      intro h acc
      have hr : ruleMatches r path = false := h r (List.mem_cons_self _ _)
      simp only [List.foldl_cons, hr, Bool.false_eq_true, if_false]
      exact ih (fun r' hr' => h r' (List.mem_cons_of_mem _ hr')) acc

/-- C3: for the rule set `["*.tmp", "!important.tmp"]` a scan over
`{a.tmp, important.tmp}` yields the candidate set `{important.tmp}`;
in general the last rule in file order whose pattern matches a path
determines whether the path is excluded, and in particular a matching
negated rule placed after the rules that excluded a path re-includes
it. -/
theorem exclusion_negation_ordering :
    candidates (parseRules ["*.tmp", "!important.tmp"]) ["a.tmp", "important.tmp"] =
      ["important.tmp"] ∧
    (∀ (rules₁ rules₂ : List Rule) (r : Rule) (path : String),
      ruleMatches r path = true →
      (∀ r' ∈ rules₂, ruleMatches r' path = false) →
      isExcluded (rules₁ ++ r :: rules₂) path = !r.negated) ∧
    (∀ (rules : List Rule) (r : Rule) (path : String),
      ruleMatches r path = true → r.negated = true →
      isExcluded (rules ++ [r]) path = false) := by
  have hlast : ∀ (rules₁ rules₂ : List Rule) (r : Rule) (path : String),
      ruleMatches r path = true →
      (∀ r' ∈ rules₂, ruleMatches r' path = false) →
      isExcluded (rules₁ ++ r :: rules₂) path = !r.negated := by
    intro rules₁ rules₂ r path hr hafter
    unfold isExcluded
    rw [List.foldl_append, List.foldl_cons, hr]
    simp only [if_true]
    exact isExcluded_foldl_no_match path rules₂ hafter _
  refine ⟨by decide, hlast, ?_⟩
  intro rules r path hr hneg
  have := hlast rules [] r path hr (by intro r' h; cases h)
  rw [this, hneg]
  rfl

/-- Witness for C3's general last-match clause: the negated
`important.tmp` rule is the last match, so the path is included. -/
theorem exclusion_negation_ordering_witness :
    isExcluded [⟨"*.tmp", false⟩, ⟨"important.tmp", true⟩] "important.tmp" = false :=
  exclusion_negation_ordering.2.1 [⟨"*.tmp", false⟩] [] ⟨"important.tmp", true⟩
    "important.tmp" (by decide) (by intro r' h; cases h)

/-! ## Annotator lemmas -/

theorem mem_indentOf_space (l : List Char) : ∀ c ∈ indentOf l, c = ' ' := by
  induction l with
  | nil => intro c h; cases h
  | cons x xs ih =>
      intro c h
      by_cases hx : x = ' '
      · simp only [indentOf, List.takeWhile, hx] at h
        rcases List.mem_cons.mp h with rfl | h
        · rfl
        · exact ih c h
      · simp only [indentOf, List.takeWhile, hx] at h
        cases h

theorem bodyOf_spaces_append (rest : List Char) :
    ∀ s : List Char, (∀ c ∈ s, c = ' ') → bodyOf (s ++ '#' :: rest) = '#' :: rest := by
  intro s
  induction s with
  | nil => intro _; simp [bodyOf, List.dropWhile]
  | cons c s ih =>
      intro h
      have hc : c = ' ' := h c (List.mem_cons_self _ _)
      subst hc
      simp only [List.cons_append, bodyOf, List.dropWhile]
      simpa [bodyOf] using ih (fun c' hc' => h c' (List.mem_cons_of_mem _ hc'))

theorem isPrefixOf_hash_false (kw rest : List Char) (a : Char)
    (hhead : kw.head? = some a) (ha : a ≠ '#') : kw.isPrefixOf ('#' :: rest) = false := by
  cases kw with
  | nil => cases hhead
  | cons b bs =>
      injection hhead with hb
      subst hb
      simp only [List.isPrefixOf, Bool.and_eq_false_imp]
      simp [beq_eq_false_iff_ne, ha]

theorem directiveFor_spaces_hash (s rest : List Char) (hs : ∀ c ∈ s, c = ' ') :
    directiveFor (s ++ '#' :: rest) = none := by
  unfold directiveFor
  rw [bodyOf_spaces_append rest s hs]
  dsimp only
  rw [isPrefixOf_hash_false ("def ".toList) rest 'd' rfl (by decide)]
  rw [isPrefixOf_hash_false ("for ".toList) rest 'f' rfl (by decide)]
  rw [isPrefixOf_hash_false ("while ".toList) rest 'w' rfl (by decide)]
  rfl

theorem directiveFor_directive (l d : List Char) (h : directiveFor l = some d) :
    directiveFor d = none := by
  have hs : ∀ c ∈ indentOf l, c = ' ' := mem_indentOf_space l
  unfold directiveFor at h
  by_cases h1 : (("def ".toList).isPrefixOf (bodyOf l)) = true
  · rw [if_pos h1] at h
    injection h with h
    subst h
    exact directiveFor_spaces_hash _ _ hs
  · rw [if_neg h1] at h
    by_cases h2 : (("for ".toList).isPrefixOf (bodyOf l)) = true
    · rw [if_pos h2] at h
      injection h with h
      subst h
      exact directiveFor_spaces_hash _ _ hs
    · rw [if_neg h2] at h
      by_cases h3 : (("while ".toList).isPrefixOf (bodyOf l)) = true
      · rw [if_pos h3] at h
        injection h with h
        subst h
        exact directiveFor_spaces_hash _ _ hs
      · rw [if_neg h3] at h
        cases h

theorem annotateAux_idem :
    ∀ (ls : List (List Char)) (prev : Option (List Char)),
      annotateAux prev (annotateAux prev ls) = annotateAux prev ls := by
  intro ls
  induction ls with
  | nil => intro prev; rfl
  | cons l ls ih =>
      intro prev
      cases hd : directiveFor l with
      | none =>
          simp only [annotateAux, hd]
          rw [ih (some l)]
      | some d =>
          by_cases hp : prev = some d
          · subst hp
            simp only [annotateAux, hd]
            simp only [if_pos]
            rw [ih (some l)]
          · simp only [annotateAux, hd, if_neg hp]
            simp only [annotateAux, directiveFor_directive l d hd, hd]
            simp only [if_pos]
            rw [ih (some l)]

/-- C6: the annotator is idempotent — applied to its own output it
inserts no second copy of any directive, so `annotate (annotate x) =
annotate x` for every source text. -/
theorem annotate_idempotent (x : List (List Char)) :
    annotate (annotate x) = annotate x :=
  annotateAux_idem x none

/-- C7: clean mode's frame condition — the root directory survives
unchanged; every file matched by the keep allow-list and every file
outside the recognized artifact patterns is still present after the
clean; every removed path was a recognized artifact not on the keep
list; and no path outside the original tree appears. -/
theorem clean_frame (t : TargetTree) (keep : List String) :
    (cleanRun t keep).root = t.root ∧
    (∀ p ∈ t.files, isArtifact p = false → p ∈ (cleanRun t keep).files) ∧
    (∀ p ∈ t.files, keepMatches keep p = true → p ∈ (cleanRun t keep).files) ∧
    (∀ p ∈ t.files, p ∉ (cleanRun t keep).files →
      isArtifact p = true ∧ keepMatches keep p = false) ∧
    (∀ p ∈ (cleanRun t keep).files, p ∈ t.files) := by
  refine ⟨rfl, ?_, ?_, ?_, ?_⟩
  · intro p hp ha
    exact List.mem_filter.mpr ⟨hp, by simp [ha]⟩
  · intro p hp hk
    exact List.mem_filter.mpr ⟨hp, by simp [hk]⟩
  · intro p hp hout
    by_cases ha : isArtifact p
    · by_cases hk : keepMatches keep p
      · exact absurd (List.mem_filter.mpr ⟨hp, by simp [hk]⟩) hout
      · exact ⟨ha, by simpa using hk⟩
    · exact absurd (List.mem_filter.mpr ⟨hp, by simp [ha]⟩) hout
  · intro p hp
    exact (List.mem_filter.mp hp).1

/-- Witness for C7: a Python source file and a kept artifact survive a
clean that removes the other artifacts. -/
theorem clean_frame_witness :
    (cleanRun ⟨"proj", ["a.py", "b.so", "keep.so", "build/x.c"]⟩ ["keep.so"]).root = "proj" ∧
    "a.py" ∈ (cleanRun ⟨"proj", ["a.py", "b.so", "keep.so", "build/x.c"]⟩ ["keep.so"]).files ∧
    "keep.so" ∈ (cleanRun ⟨"proj", ["a.py", "b.so", "keep.so", "build/x.c"]⟩ ["keep.so"]).files :=
  ⟨(clean_frame ⟨"proj", ["a.py", "b.so", "keep.so", "build/x.c"]⟩ ["keep.so"]).1,
   (clean_frame ⟨"proj", ["a.py", "b.so", "keep.so", "build/x.c"]⟩ ["keep.so"]).2.1
     "a.py" (by decide) (by decide),
   (clean_frame ⟨"proj", ["a.py", "b.so", "keep.so", "build/x.c"]⟩ ["keep.so"]).2.2.1
     "keep.so" (by decide) (by decide)⟩

/-! ## The demo's heavy_loop -/

theorem roundF_small_or_even (x : Nat) : roundF x < 2 ^ 53 ∨ roundF x % 2 = 0 := by
  unfold roundF
  split_ifs with h
  · exact Or.inl h
  · right
    have hx : 2 ^ 53 ≤ x := le_of_not_lt h
    have h1 : x < 2 ^ (x.log2 + 1) := Nat.lt_log2_self
    have h2 : 2 ^ 53 < 2 ^ (x.log2 + 1) := lt_of_le_of_lt hx h1
    have h3 : 53 < x.log2 + 1 := (Nat.pow_lt_pow_iff_right (by norm_num)).mp h2
    have hdvd : 2 ∣ 2 ^ (x.log2 - 52) := dvd_pow_self 2 (by omega)
    have := Dvd.dvd.mul_left hdvd
      (roundNearestEven (x / 2 ^ (x.log2 - 52)) (x % 2 ^ (x.log2 - 52)) (2 ^ (x.log2 - 52)))
    omega

theorem fladd_small_or_even (a b : Nat) : fladd a b < 2 ^ 53 ∨ fladd a b % 2 = 0 :=
  roundF_small_or_even (a + b)

theorem foldl_fladd_inv (g : Nat → Nat) :
    ∀ (l : List Nat) (t : Nat), (t < 2 ^ 53 ∨ t % 2 = 0) →
      (List.foldl (fun t j => fladd t (g j)) t l < 2 ^ 53 ∨
       List.foldl (fun t j => fladd t (g j)) t l % 2 = 0) := by
  intro l
  induction l with
  | nil => intro t ht; exact ht
  | cons j l ih => intro t _; exact ih (fladd t (g j)) (fladd_small_or_even t (g j))

theorem heavy_loop_float_small_or_even (n : Nat) :
    heavy_loop_float n < 2 ^ 53 ∨ heavy_loop_float n % 2 = 0 := by
  unfold heavy_loop_float
  have main : ∀ (l : List Nat) (t : Nat), (t < 2 ^ 53 ∨ t % 2 = 0) →
      (List.foldl (fun t (i : Nat) => innerLoopFloat i t) t l < 2 ^ 53 ∨
       List.foldl (fun t (i : Nat) => innerLoopFloat i t) t l % 2 = 0) := by
    intro l
    induction l with
    | nil => intro t ht; exact ht
    | cons i l ih =>
        intro t ht
        exact ih (innerLoopFloat i t) (foldl_fladd_inv _ (List.range 50) t ht)
  exact main (List.range n) 0 (Or.inl (by norm_num))

theorem foldl_fladd_exact (g : Nat → Nat) :
    ∀ (l : List Nat) (t : Nat), t + (l.map g).sum < 2 ^ 53 →
      List.foldl (fun t j => fladd t (g j)) t l = t + (l.map g).sum := by
  intro l
  induction l with
  | nil => intro t _; simp
  | cons j l ih =>
      intro t h
      simp only [List.map_cons, List.sum_cons] at h ⊢
      have h1 : t + g j < 2 ^ 53 := by omega
      have hf : fladd t (g j) = t + g j := by
        unfold fladd roundF
        rw [if_pos h1]
      rw [List.foldl_cons, hf, ih (t + g j) (by omega)]
      omega

theorem sum_map_range {M : Type} [AddCommMonoid M] (g : Nat → M) :
    ∀ m : Nat, ((List.range m).map g).sum = ∑ j ∈ Finset.range m, g j := by
  intro m
  induction m with
  | zero => simp
  | succ m ih => rw [List.range_succ, Finset.sum_range_succ, ← ih]; simp

theorem inner_sum_closed (i : Nat) :
    ∑ j ∈ Finset.range 50, (i * j + i + j) = 1275 * i + 1225 := by
  have h1 : ∑ j ∈ Finset.range 50, j = 1225 := by decide
  rw [Finset.sum_add_distrib, Finset.sum_add_distrib, ← Finset.mul_sum, h1,
    Finset.sum_const, Finset.card_range]
  simp [smul_eq_mul]
  ring

theorem sum_closed (n : Nat) :
    ∑ i ∈ Finset.range n, ∑ j ∈ Finset.range 50, (i * j + i + j) =
      1275 * (n * (n - 1) / 2) + 1225 * n := by
  rw [Finset.sum_congr rfl (fun i _ => inner_sum_closed i), Finset.sum_add_distrib,
    ← Finset.mul_sum, Finset.sum_const, Finset.card_range, Finset.sum_range_id]
  simp [smul_eq_mul]
  ring

/-- C9 (counterexample): the for-every-n claim fails on the program's
float accumulator — at `n = 4000002` the exact sum is an odd integer
above `2^53`, hence not representable in binary64, while every rounded
accumulator value at or above `2^53` is even, so `heavy_loop` cannot
return the exact sum there. -/
theorem heavy_loop_float_rounds :
    heavy_loop_float 4000002 ≠
      ∑ i ∈ Finset.range 4000002, ∑ j ∈ Finset.range 50, (i * j + i + j) := by
  intro h
  have hP := heavy_loop_float_small_or_even 4000002
  rw [h, sum_closed] at hP
  revert hP
  decide

/-- C9 (amended): for every `n` at which the exact sum stays below
`2^53`, the float accumulator never rounds and `heavy_loop n` returns
exactly the sum over `i < n` and `j < 50` of `i*j + i + j`; in
particular `heavy_loop 0 = 0.0`. -/
theorem heavy_loop_float_exact :
    heavy_loop_float 0 = 0 ∧
    ∀ n : Nat,
      (∑ i ∈ Finset.range n, ∑ j ∈ Finset.range 50, (i * j + i + j)) < 2 ^ 53 →
      heavy_loop_float n =
        ∑ i ∈ Finset.range n, ∑ j ∈ Finset.range 50, (i * j + i + j) := by
  have hinner : ∀ i : Nat,
      ((List.range 50).map (fun j => i * j + i + j)).sum =
        ∑ j ∈ Finset.range 50, (i * j + i + j) := fun i =>
    sum_map_range (fun j => i * j + i + j) 50
  have houter : ∀ (l : List Nat) (t : Nat),
      t + (l.map (fun i => ((List.range 50).map (fun j => i * j + i + j)).sum)).sum < 2 ^ 53 →
      List.foldl (fun t (i : Nat) => innerLoopFloat i t) t l =
        t + (l.map (fun i => ((List.range 50).map (fun j => i * j + i + j)).sum)).sum := by
    intro l
    induction l with
    | nil => intro t _; simp
    | cons i l ih =>
        intro t h
        simp only [List.map_cons, List.sum_cons] at h ⊢
        have hI : innerLoopFloat i t =
            t + ((List.range 50).map (fun j => i * j + i + j)).sum :=
          foldl_fladd_exact (fun j => i * j + i + j) (List.range 50) t (by omega)
        rw [List.foldl_cons, hI, ih _ (by omega)]
        omega
  constructor
  · rfl
  · intro n h
    have hsums : ((List.range n).map
        (fun i => ((List.range 50).map (fun j => i * j + i + j)).sum)).sum =
        ∑ i ∈ Finset.range n, ∑ j ∈ Finset.range 50, (i * j + i + j) := by
      rw [sum_map_range]
      exact Finset.sum_congr rfl (fun i _ => hinner i)
    unfold heavy_loop_float
    rw [houter (List.range n) 0 (by rw [hsums]; omega), hsums]
    omega

/-- Witness for the amended C9: at `n = 10` the sum is far below
`2^53` and the float result equals it. -/
theorem heavy_loop_float_exact_witness :
    (∑ i ∈ Finset.range 10, ∑ j ∈ Finset.range 50, (i * j + i + j)) < 2 ^ 53 ∧
    heavy_loop_float 10 =
      ∑ i ∈ Finset.range 10, ∑ j ∈ Finset.range 50, (i * j + i + j) :=
  ⟨by decide, heavy_loop_float_exact.2 10 (by decide)⟩

/-- C10: every annotation line of `demo.pyx` begins with `#` (each is a
comment), the executable statements of the annotated file are exactly
the un-annotated source, and `heavy_loop` computes the same value in
both versions. -/
theorem demo_annotations_are_comments :
    demoAnnotationLines.all isCommentLine = true ∧
    execLines demoLines = demoPlainLines ∧
    ∀ n : Nat, heavy_loop n = heavy_loop_plain n := by
  refine ⟨by decide, by decide, fun n => rfl⟩

/-! ## Scanner lemmas -/

theorem string_toList_inj {a b : String} (h : a.toList = b.toList) : a = b := by
  cases a; cases b
  exact congrArg String.mk (by simpa [String.toList] using h)

theorem scanChildren_eq (rules : List Rule) (pre : String) (es : List FSEntry) :
    scanChildren rules pre es = es.map (fun e => (entryName e, scanEntry rules pre e)) := by
  induction es with
  | nil => rfl
  | cons e es ih => simp [scanChildren, ih]

theorem scanParChildren_eq (σ : List Arena → List Arena) (rules : List Rule) (pre : String)
    (es : List FSEntry) :
    scanParChildren σ rules pre es =
      es.map (fun e => (entryName e, scanParEntry σ rules pre e)) := by
  induction es with
  | nil => rfl
  | cons e es ih => simp [scanParChildren, ih]

theorem wfList_iff (es : List FSEntry) : wfList es = true ↔ ∀ e ∈ es, wfEntry e = true := by
  induction es with
  | nil => simp [wfList]
  | cons e es ih => simp [wfList, ih]

theorem sortArenas_sorted (l : List Arena) :
    List.Sorted (fun a b : Arena => a.1.toList ≤ b.1.toList) (sortArenas l) := by
  haveI : IsTotal Arena (fun a b => a.1.toList ≤ b.1.toList) :=
    ⟨fun a b => le_total a.1.toList b.1.toList⟩
  haveI : IsTrans Arena (fun a b => a.1.toList ≤ b.1.toList) :=
    ⟨fun a b c => le_trans⟩
  exact List.sorted_insertionSort _ l

theorem sortArenas_perm (l : List Arena) : (sortArenas l).Perm l :=
  List.perm_insertionSort _ l

theorem sortArenas_perm_eq (l₁ l₂ : List Arena) (hp : l₁.Perm l₂)
    (hnd : (l₂.map Prod.fst).Nodup) : sortArenas l₁ = sortArenas l₂ := by
  have hperm : (sortArenas l₁).Perm (sortArenas l₂) :=
    ((sortArenas_perm l₁).trans hp).trans (sortArenas_perm l₂).symm
  have hnd₁ : ((sortArenas l₁).map Prod.fst).Nodup :=
    (((sortArenas_perm l₁).trans hp).map Prod.fst).nodup_iff.mpr hnd
  have hnd₂ : ((sortArenas l₂).map Prod.fst).Nodup :=
    ((sortArenas_perm l₂).map Prod.fst).nodup_iff.mpr hnd
  have hs₁ : List.Pairwise (fun a b : Arena => a.1.toList < b.1.toList) (sortArenas l₁) := by
    have hne : List.Pairwise (fun a b : Arena => a.1 ≠ b.1) (sortArenas l₁) :=
      List.pairwise_map.mp hnd₁
    exact ((sortArenas_sorted l₁).and hne).imp
      (fun h => lt_of_le_of_ne h.1 (fun e => h.2 (string_toList_inj e)))
  have hs₂ : List.Pairwise (fun a b : Arena => a.1.toList < b.1.toList) (sortArenas l₂) := by
    have hne : List.Pairwise (fun a b : Arena => a.1 ≠ b.1) (sortArenas l₂) :=
      List.pairwise_map.mp hnd₂
    exact ((sortArenas_sorted l₂).and hne).imp
      (fun h => lt_of_le_of_ne h.1 (fun e => h.2 (string_toList_inj e)))
  haveI : IsAntisymm Arena (fun a b : Arena => a.1.toList < b.1.toList) :=
    ⟨fun a b h h' => absurd (lt_trans h h') (lt_irrefl _)⟩
  exact List.eq_of_perm_of_sorted hperm hs₁ hs₂

theorem scanPar_eq_seq (σ : List Arena → List Arena) (hσ : ∀ l, (σ l).Perm l) :
    ∀ (n : Nat) (e : FSEntry), sizeOf e ≤ n → wfEntry e = true →
    ∀ (rules : List Rule) (pre : String),
      scanParEntry σ rules pre e = scanEntry rules pre e := by
  intro n
  induction n with
  | zero =>
      intro e he
      exfalso
      cases e <;> simp at he
  | succ n ih =>
      intro e he hwf rules pre
      cases e with
      | file name sz mt h => rfl
      | dir name es =>
          have hwf' := hwf
          simp only [wfEntry, Bool.and_eq_true] at hwf'
          obtain ⟨hnd, hall⟩ := hwf'
          have hchild : ∀ e ∈ es, ∀ pre',
              scanParEntry σ rules pre' e = scanEntry rules pre' e := by
            intro e hmem pre'
            have hsz : sizeOf e < sizeOf (FSEntry.dir name es) := by
              have h1 : sizeOf e < sizeOf es := List.sizeOf_lt_sizeOf_of_mem hmem
              simp only [FSEntry.dir.sizeOf_spec]
              omega
            exact ih e (by omega) ((wfList_iff es).mp hall e hmem) rules pre'
          have harena : scanParChildren σ rules (pre ++ name ++ "/") es =
              scanChildren rules (pre ++ name ++ "/") es := by
            rw [scanParChildren_eq, scanChildren_eq]
            exact List.map_congr_left (fun e hmem => by rw [hchild e hmem])
          have hnodup : ((scanChildren rules (pre ++ name ++ "/") es).map Prod.fst).Nodup := by
            rw [scanChildren_eq, List.map_map]
            simpa [Function.comp] using (of_decide_eq_true hnd : (es.map entryName).Nodup)
          show ((sortArenas (σ (scanParChildren σ rules (pre ++ name ++ "/") es))).map
              Prod.snd).flatten = _
          rw [harena,
            sortArenas_perm_eq (σ (scanChildren rules (pre ++ name ++ "/") es))
              (scanChildren rules (pre ++ name ++ "/") es) (hσ _) hnodup]
          rfl

/-- C8: the scan is deterministic — whatever reordering of per-subtree
arenas the worker interleaving produces, the scan of a well-formed
filesystem snapshot equals the reference sequential scan (directory
entries sorted by name, depth-first), so any two scans over identical
filesystem state produce the same sequence of SourceUnits in the same
order. -/
theorem scanner_deterministic (σ₁ σ₂ : List Arena → List Arena)
    (h₁ : ∀ l, (σ₁ l).Perm l) (h₂ : ∀ l, (σ₂ l).Perm l)
    (rules : List Rule) (pre : String) (e : FSEntry) (hwf : wfEntry e = true) :
    scanParEntry σ₁ rules pre e = scanEntry rules pre e ∧
    scanParEntry σ₁ rules pre e = scanParEntry σ₂ rules pre e := by
  have e₁ := scanPar_eq_seq σ₁ h₁ (sizeOf e) e (le_refl _) hwf rules pre
  have e₂ := scanPar_eq_seq σ₂ h₂ (sizeOf e) e (le_refl _) hwf rules pre
  exact ⟨e₁, e₁.trans e₂.symm⟩

/-- Witness for C8: reversing the arena arrival order at every
directory still yields the sequential sorted depth-first scan on a
concrete tree. -/
theorem scanner_deterministic_witness :
    scanParEntry List.reverse []
        "" (.dir "root" [.file "b.py" 1 2 3, .dir "a" [.file "z.py" 4 5 6],
          .file "a.txt" 7 8 9]) =
      scanEntry [] "" (.dir "root" [.file "b.py" 1 2 3, .dir "a" [.file "z.py" 4 5 6],
        .file "a.txt" 7 8 9]) :=
  (scanner_deterministic List.reverse id (fun l => l.reverse_perm) (fun l => List.Perm.refl l)
    [] "" (.dir "root" [.file "b.py" 1 2 3, .dir "a" [.file "z.py" 4 5 6],
      .file "a.txt" 7 8 9]) (by decide)).1

end AutoCythonizer
